import Mathlib

/-!
# Verification of the blog-stack static site generator

A shallow embedding of the content pipeline of the `blog-stack` repository
(`blog_generator.py`, `blog_generator/md_to_html.py`) together with proofs
about its behaviour.  Text is modelled as `List Char`; the fallible external
collaborators (the filesystem, the YAML parser, the date parser) are modelled
as explicitly passed functions, so that theorems quantify over every possible
behaviour of the collaborator.
-/

set_option maxRecDepth 16000

namespace BlogStack

/-- Document text, file names and paths are lists of characters. -/
abbrev Str := List Char

/-! ## Python string primitives used by the pipeline -/

/-- Python `s.startswith(pre)`. -/
def pyStartsWith (pre s : Str) : Bool :=
  List.isPrefixOf pre s

/-- Locate the first occurrence of the (non-empty) separator `sep` in a
string: `findSep sep s = some (pre, suf)` when `s = pre ++ sep ++ suf` and
`pre` is the shortest such prefix; `none` when `sep` does not occur. -/
def findSep (sep : Str) : Str → Option (Str × Str)
  | [] => if List.isPrefixOf sep ([] : Str) then some ([], []) else none
  | c :: cs =>
    if List.isPrefixOf sep (c :: cs) then some ([], (c :: cs).drop sep.length)
    else
      match findSep sep cs with
      | some (pre, suf) => some (c :: pre, suf)
      | none => none

/-- Python `s.split(sep, 2)` for a non-empty separator, as used with
`md_content.split('---', 2)`: at most two splits, scanning left to right on
non-overlapping occurrences. -/
def split3 (sep s : Str) : List Str :=
  match findSep sep s with
  | none => [s]
  | some (p1, r1) =>
    match findSep sep r1 with
    | none => [p1, r1]
    | some (p2, r2) => [p1, p2, r2]

/-- The whitespace characters stripped by Python `str.strip()` (ASCII part). -/
def isPySpace (c : Char) : Bool :=
  c == ' ' || c == '\t' || c == '\n' || c == '\r' || c == '\x0b' || c == '\x0c'

/-- Python `s.strip()`. -/
def pyStrip (s : Str) : Str :=
  ((s.dropWhile isPySpace).reverse.dropWhile isPySpace).reverse

/-- The frontmatter delimiter `'---'`. -/
def delim : Str := ['-', '-', '-']

/-- The body text used for rendering and for excerpt derivation
(`generate_blog_site` and `generate_home_page`):
`content_parts = md_content.split('---', 2)`; when this yields at least
three parts the body is `content_parts[2].strip()`, otherwise the original
text. -/
def deriveBody (md : Str) : Str :=
  match split3 delim md with
  | [_, _, p2] => pyStrip p2
  | _ => md

/-! ### Soundness of the separator search -/

theorem findSep_sound {sep : Str} :
    ∀ {s pre suf : Str}, findSep sep s = some (pre, suf) → s = pre ++ sep ++ suf := by
  intro s
  induction s with
  | nil =>
    intro pre suf h
    simp only [findSep] at h
    by_cases hp : List.isPrefixOf sep ([] : Str)
    · have hsep : sep = [] := by
        have := List.isPrefixOf_iff_prefix.mp hp
        simpa using this
      simp only [hp, if_pos, Option.some.injEq, Prod.mk.injEq] at h
      obtain ⟨h1, h2⟩ := h
      subst h1
      subst h2
      simp [hsep]
    · simp [hp] at h
  | cons c cs ih =>
    intro pre suf h
    simp only [findSep] at h
    by_cases hp : List.isPrefixOf sep (c :: cs)
    · simp only [hp, if_pos, Option.some.injEq, Prod.mk.injEq] at h
      obtain ⟨h1, h2⟩ := h
      subst h1
      subst h2
      have hpre : sep <+: c :: cs := List.isPrefixOf_iff_prefix.mp hp
      obtain ⟨t, ht⟩ := hpre
      rw [← ht, List.drop_left]
      simp
    · simp only [hp, if_neg, Bool.false_eq_true, not_false_iff, if_false] at h
      cases hfs : findSep sep cs with
      | none => simp [hfs] at h
      | some pr =>
        obtain ⟨p0, s0⟩ := pr
        simp only [hfs, Option.some.injEq, Prod.mk.injEq] at h
        obtain ⟨h1, h2⟩ := h
        subst h1
        subst h2
        have := ih hfs
        rw [this]
        simp

/-- If a string decomposes with two occurrences of the delimiter then `'-'`
occurs in it (used to discharge the no-double-delimiter hypothesis on
concrete strings). -/
theorem dash_mem_of_double {s : Str}
    (h : ∃ a b c : Str, s = a ++ delim ++ b ++ delim ++ c) : '-' ∈ s := by
  obtain ⟨a, b, c, rfl⟩ := h
  simp [delim]

/-- **C4 (amended part), general statement:** if the delimiter `'---'` has
fewer than two (disjoint) occurrences in the raw text, the derived body is
the original text unchanged. -/
theorem deriveBody_eq_of_no_double_delim (md : Str)
    (h : ¬ ∃ a b c : Str, md = a ++ delim ++ b ++ delim ++ c) :
    deriveBody md = md := by
  unfold deriveBody split3
  cases h1 : findSep delim md with
  | none => rfl
  | some pr1 =>
    obtain ⟨p1, r1⟩ := pr1
    cases h2 : findSep delim r1 with
    | none => simp [h2]
    | some pr2 =>
      obtain ⟨p2, r2⟩ := pr2
      exfalso
      apply h
      refine ⟨p1, p2, r2, ?_⟩
      have e1 := findSep_sound h1
      have e2 := findSep_sound h2
      rw [e1, e2]
      simp

/-- **C4, amended:** for every raw text in which the delimiter `'---'` occurs
fewer than twice, the body text used for rendering and excerpt derivation is
the original text unchanged.  (The original claim's first clause — that a
text not *beginning* with `'---'` also keeps its body unchanged — fails: the
body split does not check `startswith`, see the counterexample.) -/
theorem C4_body_unchanged (md : Str)
    (h : ¬ ∃ a b c : Str, md = a ++ delim ++ b ++ delim ++ c) :
    deriveBody md = md :=
  deriveBody_eq_of_no_double_delim md h

/-- Witness for `C4_body_unchanged` at the concrete raw text `"hello"`. -/
theorem C4_body_unchanged_witness :
    deriveBody ("hello".toList) = "hello".toList :=
  C4_body_unchanged ("hello".toList) (fun hd => by
    have hm := dash_mem_of_double hd
    revert hm
    decide)

/-- **C4, counterexample to the claim as stated:** the raw text
`"a---b---c"` does not begin with the `'---'` delimiter, yet its derived
body is `"c"`, not the original text: the body split ignores `startswith`
and splits on delimiter occurrences anywhere in the text. -/
theorem C4_counterexample :
    pyStartsWith delim ("a---b---c".toList) = false ∧
      deriveBody ("a---b---c".toList) = "c".toList ∧
      deriveBody ("a---b---c".toList) ≠ "a---b---c".toList := by
  decide

/-! ## Index Composer: excerpt derivation (`generate_home_page`) -/

/-- The three Markdown marker characters removed by
`re.sub(r'[#*`]', '', excerpt)` (the third is the backtick). -/
def markerChars : Str := ['#', '*', Char.ofNat 96]

/-- The excerpt of a document body:
`excerpt = content[:150] + "..." if len(content) > 150 else content`
followed by removal of every marker character. -/
def excerptOf (content : Str) : Str :=
  let e := if 150 < content.length then content.take 150 ++ "...".toList else content
  e.filter (fun c => !(markerChars.contains c))

/-- **C7:** the excerpt is the body truncated to its first 150 characters
with `"..."` appended exactly when the body exceeds 150 characters, after
which the marker characters are removed; for marker-free bodies the
truncation is exact, a 200-character plain body yields 150 characters plus
`"..."` (153 characters), and a 100-character body is returned whole. -/
theorem C7_excerpt :
    (∀ body : Str, (∀ c ∈ body, c ∉ markerChars) →
      (150 < body.length → excerptOf body = body.take 150 ++ "...".toList) ∧
      (body.length ≤ 150 → excerptOf body = body)) ∧
    excerptOf (List.replicate 200 'a') = List.replicate 150 'a' ++ "...".toList ∧
    (excerptOf (List.replicate 200 'a')).length = 153 ∧
    excerptOf (List.replicate 100 'a') = List.replicate 100 'a' := by
  refine ⟨?_, by decide, by decide, by decide⟩
  intro body h
  constructor
  · intro hlen
    simp only [excerptOf, if_pos hlen, List.filter_append]
    have h1 : (body.take 150).filter (fun c => !(markerChars.contains c)) = body.take 150 := by
      apply List.filter_eq_self.mpr
      intro c hc
      simpa using h c (List.mem_of_mem_take hc)
    have h2 : ("...".toList).filter (fun c => !(markerChars.contains c)) = "...".toList := by
      decide
    rw [h1, h2]
  · intro hlen
    have hnot : ¬ 150 < body.length := by omega
    simp only [excerptOf, if_neg hnot]
    apply List.filter_eq_self.mpr
    intro c hc
    simpa using h c hc

/-- Witness for `C7_excerpt` at a 200-character marker-free body. -/
theorem C7_excerpt_witness :
    excerptOf (List.replicate 200 'a') = (List.replicate 200 'a').take 150 ++ "...".toList :=
  (C7_excerpt.1 (List.replicate 200 'a') (by decide)).1 (by decide)

/-! ## Metadata Extractor (`extract_metadata`)

The YAML parser (`yaml.safe_load`) and the date parser
(`datetime.strptime(str(date_str), '%Y-%m-%d')`) are external library
collaborators; they are modelled as explicitly passed functions, so every
theorem below holds for *every* behaviour of those collaborators.  A raised
exception is modelled as `Except.error` / `Option.none`. -/

/-- A parsed YAML value as far as the extractor observes it. -/
inductive YamlVal where
  | null
  | str (s : Str)
  | seq (items : List Str)
deriving DecidableEq

/-- A parsed frontmatter block: key-value pairs (`yaml.safe_load` result). -/
abbrev YamlDict := List (Str × YamlVal)

/-- Association-list lookup, modelling Python `dict` indexing / `dict.get`. -/
def alistGet {β : Type} : List (Str × β) → Str → Option β
  | [], _ => none
  | (k, v) :: rest, key => if k = key then some v else alistGet rest key

/-- Python truthiness of a YAML value (the `if date_str:` guard). -/
def yamlTruthy : YamlVal → Bool
  | .null => false
  | .str s => !s.isEmpty
  | .seq items => !items.isEmpty

/-- The metadata tuple returned by `extract_metadata`.  The publication
date is an abstract chronological value (`Nat`), produced by the date
parser when it succeeds. -/
structure Metadata where
  title : YamlVal
  date : Option Nat
  status : YamlVal
  author : YamlVal
  tags : YamlVal
deriving DecidableEq

/-- The all-defaults tuple `("Untitled", None, "draft", "", [])`. -/
def defaultMeta : Metadata :=
  { title := .str ("Untitled".toList), date := none,
    status := .str ("draft".toList), author := .str [], tags := .seq [] }

/-- `extract_metadata(md_content)`:
guard on `startswith('---')`, split off the frontmatter with
`split('---', 2)`, parse it with the YAML collaborator (any raised
exception, including `.get` on a non-dict, is `Except.error`, caught by the
bare `except` and degraded to all defaults), then read the five fields; a
present and truthy date value is run through the date parser whose failure
(`ValueError`) degrades to no date only. -/
def extract_metadata (yamlLoad : Str → Except Unit YamlDict)
    (parseDate : YamlVal → Option Nat) (md : Str) : Metadata :=
  if pyStartsWith delim md then
    match split3 delim md with
    | [_, p1, _] =>
      match yamlLoad (pyStrip p1) with
      | .error _ => defaultMeta
      | .ok meta =>
        { title := (alistGet meta ("title".toList)).getD (.str ("Untitled".toList)),
          date :=
            match alistGet meta ("date".toList) with
            | none => none
            | some v => if yamlTruthy v then parseDate v else none,
          status := (alistGet meta ("status".toList)).getD (.str ("draft".toList)),
          author := (alistGet meta ("author".toList)).getD (.str []),
          tags := (alistGet meta ("tags".toList)).getD (.seq []) }
    | _ => defaultMeta
  else defaultMeta

/-- **C6:** `extract_metadata` is total (it is a plain function here: no
raise), a failing date parse degrades to "no date" while the other four
fields are still read from the parsed header, and a failing header parse
degrades the whole result to the default tuple. -/
theorem C6_extract_degradation :
    (∀ (yamlLoad : Str → Except Unit YamlDict) (parseDate : YamlVal → Option Nat)
        (md p0 p1 p2 : Str) (d : YamlDict),
      pyStartsWith delim md = true →
      split3 delim md = [p0, p1, p2] →
      yamlLoad (pyStrip p1) = .ok d →
      (∀ v, alistGet d ("date".toList) = some v → yamlTruthy v = true → parseDate v = none) →
      extract_metadata yamlLoad parseDate md =
        { title := (alistGet d ("title".toList)).getD (.str ("Untitled".toList)),
          date := none,
          status := (alistGet d ("status".toList)).getD (.str ("draft".toList)),
          author := (alistGet d ("author".toList)).getD (.str []),
          tags := (alistGet d ("tags".toList)).getD (.seq []) }) ∧
    (∀ (yamlLoad : Str → Except Unit YamlDict) (parseDate : YamlVal → Option Nat)
        (md p0 p1 p2 : Str),
      pyStartsWith delim md = true →
      split3 delim md = [p0, p1, p2] →
      yamlLoad (pyStrip p1) = .error () →
      extract_metadata yamlLoad parseDate md = defaultMeta) := by
  constructor
  · intro yamlLoad parseDate md p0 p1 p2 d hsw hsp hok hdate
    simp only [extract_metadata, hsw, hsp, hok, if_true]
    congr 1
    cases hv : alistGet d ("date".toList) with
    | none => rfl
    | some v =>
      by_cases ht : yamlTruthy v = true
      · simp [ht, hdate v hv ht]
      · simp [ht]
  · intro yamlLoad parseDate md p0 p1 p2 hsw hsp herr
    simp [extract_metadata, hsw, hsp, herr]

/-- A demonstration header dictionary for the witness. -/
def demoDict : YamlDict :=
  [("title".toList, .str ("T".toList)),
   ("date".toList, .str ("not-a-date".toList)),
   ("author".toList, .str ("A".toList))]

/-- Witness for `C6_extract_degradation`: a concrete header whose date
fails to parse keeps title/status/author/tags and drops only the date. -/
theorem C6_extract_degradation_witness :
    extract_metadata (fun _ => .ok demoDict) (fun _ => none)
        ("---\nt\n---\nbody".toList) =
      { title := .str ("T".toList), date := none,
        status := .str ("draft".toList), author := .str ("A".toList),
        tags := .seq [] } := by
  have h := C6_extract_degradation.1 (fun _ => .ok demoDict) (fun _ => none)
    ("---\nt\n---\nbody".toList) [] ("\nt\n".toList) ("\nbody".toList) demoDict
    (by decide) (by decide) rfl (fun v _ _ => rfl)
  rw [h]
  decide

/-! ## Corpus Assembler: the published ordering

`generate_blog_site` accumulates, in input-discovery order, the records
whose status is the literal `'published'`, then sorts them with
`published_blogs.sort(key=lambda x: x['date'] or datetime.min, reverse=True)`.
Python's `list.sort` is a *stable* sort; with `reverse=True` equal keys keep
their original relative order.  Dates are modelled as an abstract
chronological value `Nat` with `datetime.min` as `0`; a record's sort key is
`date or datetime.min`.  The stable descending sort is modelled by insertion
sort with the reflexive "key not smaller" relation, which places each
element after all earlier elements of greater-or-equal key. -/

/-- The per-document record accumulated by the assembler (the fields the
ordering observes). -/
structure BlogInfo where
  title : Str
  date : Option Nat
  status : Str
  srcFile : Str
deriving DecidableEq

/-- `x['date'] or datetime.min`: a missing date compares as the minimum
possible date. -/
def sortKey (b : BlogInfo) : Nat :=
  b.date.getD 0

/-- The descending comparison used by the sort: `a` may precede `b` when
`a`'s key is at least `b`'s. -/
def keyGE (a b : BlogInfo) : Prop :=
  sortKey b ≤ sortKey a

instance : DecidableRel keyGE :=
  fun a b => Nat.decLe (sortKey b) (sortKey a)

instance : IsTotal BlogInfo keyGE :=
  ⟨fun a b => (Nat.le_total (sortKey a) (sortKey b)).symm⟩

instance : IsTrans BlogInfo keyGE :=
  ⟨fun _ _ _ h1 h2 => Nat.le_trans h2 h1⟩

/-- `status == 'published'`. -/
def isPublished (b : BlogInfo) : Bool :=
  b.status == "published".toList

/-- PublishedOrdering: the published subset in discovery order, stably
sorted by date descending. -/
def publishedOrdering (corpus : List BlogInfo) : List BlogInfo :=
  List.insertionSort keyGE (corpus.filter isPublished)

theorem filter_orderedInsert (d : Nat) (a : BlogInfo) (l : List BlogInfo) :
    (List.orderedInsert keyGE a l).filter (fun r => sortKey r == d) =
      if sortKey a = d then a :: l.filter (fun r => sortKey r == d)
      else l.filter (fun r => sortKey r == d) := by
  induction l with
  | nil =>
    by_cases h : sortKey a = d <;> simp [List.orderedInsert, h]
  | cons b bs ih =>
    by_cases hr : keyGE a b
    · by_cases h : sortKey a = d <;>
        simp [List.orderedInsert, if_pos hr, h, List.filter_cons]
    · have hlt : sortKey a < sortKey b := Nat.lt_of_not_le hr
      by_cases h : sortKey a = d
      · have hb : ¬ sortKey b = d := by omega
        simp [List.orderedInsert, if_neg hr, List.filter_cons, hb, ih, h]
      · simp [List.orderedInsert, if_neg hr, List.filter_cons, ih, h]

theorem filter_insertionSort (d : Nat) :
    ∀ l : List BlogInfo,
      (List.insertionSort keyGE l).filter (fun r => sortKey r == d) =
        l.filter (fun r => sortKey r == d)
  | [] => rfl
  | b :: l => by
    simp only [List.insertionSort]
    rw [filter_orderedInsert]
    by_cases h : sortKey b = d <;>
      simp [h, List.filter_cons, filter_insertionSort d l]

/-- Concrete records for the ordering example of the claim. -/
def recJan : BlogInfo :=
  { title := "jan".toList, date := some 20240101,
    status := "published".toList, srcFile := "a.md".toList }

/-- Record dated 2024-06-01. -/
def recJun : BlogInfo :=
  { title := "jun".toList, date := some 20240601,
    status := "published".toList, srcFile := "b.md".toList }

/-- Published record with no date. -/
def recNoDate : BlogInfo :=
  { title := "nodate".toList, date := none,
    status := "published".toList, srcFile := "c.md".toList }

/-- A draft record, excluded from the published ordering. -/
def recDraft : BlogInfo :=
  { title := "draft".toList, date := some 20240701,
    status := "draft".toList, srcFile := "d.md".toList }

/-- **C3:** the published ordering contains exactly the records with status
`'published'`; it is sorted by `date or datetime.min` descending (so
records lacking a date appear last); it is stable (for each key value the
subsequence of records with that key equals the input-discovery
subsequence); and on records dated 2024-01-01, 2024-06-01 and no date it
yields `[2024-06-01, 2024-01-01, nodate]`. -/
theorem C3_published_ordering :
    (∀ corpus : List BlogInfo, List.Sorted keyGE (publishedOrdering corpus)) ∧
    (∀ (corpus : List BlogInfo) (d : Nat),
      (publishedOrdering corpus).filter (fun r => sortKey r == d) =
        (corpus.filter isPublished).filter (fun r => sortKey r == d)) ∧
    (∀ (corpus : List BlogInfo) (b : BlogInfo),
      b ∈ publishedOrdering corpus ↔ (b ∈ corpus ∧ isPublished b = true)) ∧
    publishedOrdering [recJan, recJun, recNoDate, recDraft] =
      [recJun, recJan, recNoDate] := by
  refine ⟨?_, ?_, ?_, by decide⟩
  · intro corpus
    exact List.sorted_insertionSort keyGE (corpus.filter isPublished)
  · intro corpus d
    exact filter_insertionSort d (corpus.filter isPublished)
  · intro corpus b
    rw [publishedOrdering,
      (List.perm_insertionSort keyGE (corpus.filter isPublished)).mem_iff,
      List.mem_filter]

/-! ## Asset Deduplicator (`copy_assets`)

`copy_assets` walks the source tree; each file whose lowercased extension is
in the allow-list is copied into the flat `images` directory.  A name that
already exists there is suffixed `name_1.ext`, `name_2.ext`, … until free,
then `copied_images[file] = basename(dst_path)` records the mapping.  The
model processes the traversal-ordered list of basenames, carrying the set of
names already present in the output directory (`existing`), the rename map
(a Python dict: an association list with in-place value replacement), and
the log of performed copies (`trace`, one `(source basename, assigned
name)` entry per copied file). -/

/-- The fixed case-insensitive extension allow-list. -/
def imageExtensions : List Str :=
  [".jpg".toList, ".jpeg".toList, ".png".toList, ".gif".toList,
   ".svg".toList, ".webp".toList, ".bmp".toList, ".ico".toList]

/-- `os.path.splitext` on a basename: split at the last dot, unless every
character before that dot is itself a dot (leading dots start no
extension). -/
def splitext (file : Str) : Str × Str :=
  let rev := file.reverse
  let extRev := rev.takeWhile (fun c => c != '.')
  if extRev.length = rev.length then (file, [])
  else
    let foreRev := rev.drop (extRev.length + 1)
    if foreRev.any (fun c => c != '.') then
      (foreRev.reverse, '.' :: extRev.reverse)
    else (file, [])

/-- `os.path.splitext(file)[1].lower() in image_extensions`. -/
def isImageFile (file : Str) : Bool :=
  imageExtensions.contains ((splitext file).2.map Char.toLower)

/-- Decimal digits of `n`, fuel-driven (`natDecAux fuel n`); `natDec n`
below supplies sufficient fuel.  Models Python `f"{counter}"`. -/
def natDecAux : Nat → Nat → Str
  | 0, _ => []
  | _ + 1, 0 => []
  | f + 1, n + 1 => natDecAux f ((n + 1) / 10) ++ [Nat.digitChar ((n + 1) % 10)]

/-- Decimal representation of a positive counter. -/
def natDec (n : Nat) : Str :=
  natDecAux n n

theorem natDecAux_fuel (n : Nat) :
    ∀ f g, n ≤ f → n ≤ g → natDecAux f n = natDecAux g n := by
  induction n using Nat.strong_induction_on with
  | _ n ih =>
    intro f g hf hg
    cases n with
    | zero => cases f <;> cases g <;> rfl
    | succ m =>
      cases f with
      | zero => omega
      | succ f0 =>
        cases g with
        | zero => omega
        | succ g0 =>
          simp only [natDecAux]
          have hlt : (m + 1) / 10 < m + 1 := Nat.div_lt_self (Nat.succ_pos m) (by norm_num)
          rw [ih _ hlt f0 g0 (by omega) (by omega)]

theorem natDec_unfold_pos (n : Nat) (h : 0 < n) :
    natDec n = natDec (n / 10) ++ [Nat.digitChar (n % 10)] := by
  obtain ⟨m, rfl⟩ : ∃ m, n = m + 1 := ⟨n - 1, by omega⟩
  show natDecAux (m + 1) (m + 1) = _
  simp only [natDecAux]
  have hlt : (m + 1) / 10 < m + 1 := Nat.div_lt_self (Nat.succ_pos m) (by norm_num)
  rw [natDecAux_fuel _ _ _ (by omega) (le_refl _)]
  rfl

theorem natDec_pow_len : ∀ L : Nat, (natDec (10 ^ L)).length = L + 1 := by
  intro L
  induction L with
  | zero => decide
  | succ K ih =>
    rw [natDec_unfold_pos _ (pow_pos (by norm_num) _)]
    have hdiv : 10 ^ (K + 1) / 10 = 10 ^ K := by
      rw [pow_succ]
      exact Nat.mul_div_cancel _ (by norm_num)
    rw [hdiv]
    simp [ih]

/-- The largest name length present in the output directory. -/
def maxLen (existing : List Str) : Nat :=
  existing.foldr (fun s m => max s.length m) 0

theorem length_le_maxLen {existing : List Str} {x : Str} (hx : x ∈ existing) :
    x.length ≤ maxLen existing := by
  induction existing with
  | nil => cases hx
  | cons y ys ih =>
    rcases List.mem_cons.mp hx with h | h
    · subst h
      exact le_max_left _ _
    · exact le_trans (ih h) (le_max_right _ _)

/-- `f"{name}_{counter}{ext}"`. -/
def suffixedName (nm ext : Str) (c : Nat) : Str :=
  nm ++ '_' :: (natDec c ++ ext)

/-- The `while os.path.exists(dst_path)` loop: try `name_c.ext`,
`name_(c+1).ext`, … until a free name appears.  The fuel supplied by
`resolveDst` is large enough that a free candidate is always reached. -/
def findFree (nm ext : Str) (existing : List Str) : Nat → Nat → Str
  | 0, c => suffixedName nm ext c
  | f + 1, c =>
    if suffixedName nm ext c ∈ existing then findFree nm ext existing f (c + 1)
    else suffixedName nm ext c

theorem findFree_not_mem {nm ext : Str} {existing : List Str} :
    ∀ f c, (∃ i, i < f ∧ suffixedName nm ext (c + i) ∉ existing) →
      findFree nm ext existing f c ∉ existing := by
  intro f
  induction f with
  | zero =>
    intro c h
    obtain ⟨i, hi, _⟩ := h
    omega
  | succ f0 ih =>
    intro c h
    by_cases hmem : suffixedName nm ext c ∈ existing
    · simp only [findFree, if_pos hmem]
      apply ih
      obtain ⟨i, hi, hni⟩ := h
      cases i with
      | zero => exact absurd hmem (by simpa using hni)
      | succ j =>
        refine ⟨j, by omega, ?_⟩
        have : c + 1 + j = c + (j + 1) := by omega
        rw [this]
        exact hni
    · simp only [findFree, if_neg hmem]
      exact hmem

theorem findFree_shape {nm ext : Str} {existing : List Str} :
    ∀ f c, ∃ c2, c ≤ c2 ∧ findFree nm ext existing f c = suffixedName nm ext c2 := by
  intro f
  induction f with
  | zero => exact fun c => ⟨c, le_refl _, rfl⟩
  | succ f0 ih =>
    intro c
    by_cases hmem : suffixedName nm ext c ∈ existing
    · obtain ⟨c2, hc2, heq⟩ := ih (c + 1)
      exact ⟨c2, by omega, by simp only [findFree, if_pos hmem]; exact heq⟩
    · exact ⟨c, le_refl _, by simp only [findFree, if_neg hmem]⟩

/-- The destination name assigned to one copied file: the original basename
when it is still free, otherwise the first free suffixed name. -/
def resolveDst (file : Str) (existing : List Str) : Str :=
  if file ∈ existing then
    findFree (splitext file).1 (splitext file).2 existing
      (10 ^ (maxLen existing + 1)) 1
  else file

theorem suffixed_big_not_mem (nm ext : Str) (existing : List Str) :
    suffixedName nm ext (10 ^ maxLen existing) ∉ existing := by
  intro hmem
  have h1 := length_le_maxLen hmem
  have h2 : (suffixedName nm ext (10 ^ maxLen existing)).length
      ≥ maxLen existing + 2 := by
    have hlen := natDec_pow_len (maxLen existing)
    simp only [suffixedName, List.length_append, List.length_cons]
    omega
  omega

/-- The assigned destination is never a name already present: `copy_assets`
never overwrites an existing output file. -/
theorem resolveDst_not_mem (file : Str) (existing : List Str) :
    resolveDst file existing ∉ existing := by
  unfold resolveDst
  by_cases h : file ∈ existing
  · simp only [if_pos h]
    apply findFree_not_mem
    refine ⟨10 ^ maxLen existing - 1, ?_, ?_⟩
    · have hlt : 10 ^ maxLen existing < 10 ^ (maxLen existing + 1) :=
        Nat.pow_lt_pow_succ (by norm_num)
      omega
    · have hpos : 0 < 10 ^ maxLen existing := pow_pos (by norm_num) _
      have h1 : 1 + (10 ^ maxLen existing - 1) = 10 ^ maxLen existing := by omega
      rw [h1]
      exact suffixed_big_not_mem _ _ _
  · simp only [if_neg h]
    exact h

/-- Python dict assignment `d[key] = val`: replace in place or append. -/
def alistInsert {β : Type} : List (Str × β) → Str → β → List (Str × β)
  | [], key, val => [(key, val)]
  | (k, v) :: rest, key, val =>
    if k = key then (k, val) :: rest else (k, v) :: alistInsert rest key val

/-- The state carried through the asset walk. -/
structure CopyState where
  map : List (Str × Str)
  existing : List Str
  trace : List (Str × Str)
deriving DecidableEq

/-- One file of the walk: non-images are skipped; an image gets a fresh
destination, is copied (entering `existing` and the `trace`), and its
original basename is (re)bound in the rename map. -/
def copyStep (st : CopyState) (file : Str) : CopyState :=
  if isImageFile file then
    let dst := resolveDst file st.existing
    { map := alistInsert st.map file dst,
      existing := st.existing ++ [dst],
      trace := st.trace ++ [(file, dst)] }
  else st

/-- `copy_assets`: process the traversal-ordered basenames starting from
the (freshly created, normally empty) output image directory. -/
def copy_assets (initialDir : List Str) (files : List Str) : CopyState :=
  files.foldl copyStep { map := [], existing := initialDir, trace := [] }

/-- The assigned name of the *last* copied file with source basename `k`. -/
def lastTraceValue (tr : List (Str × Str)) (k : Str) : Option Str :=
  ((tr.filter (fun e => e.1 == k)).getLast?).map Prod.snd

theorem alistGet_insert {β : Type} (m : List (Str × β)) (key k : Str) (val : β) :
    alistGet (alistInsert m key val) k =
      if key = k then some val else alistGet m k := by
  induction m with
  | nil =>
    by_cases h : key = k <;> simp [alistInsert, alistGet, h]
  | cons e rest ih =>
    obtain ⟨k0, v0⟩ := e
    by_cases h0 : k0 = key
    · subst h0
      by_cases h : k0 = k <;> simp [alistInsert, alistGet, h]
    · by_cases h : k0 = k
      · subst h
        have : ¬ key = k0 := fun he => h0 he.symm
        simp [alistInsert, alistGet, h0, this]
      · simp [alistInsert, alistGet, h0, h, ih]

/-- C1 invariant: every binding of the rename map is the *last* copy
performed for that source basename. -/
def BindsLast (st : CopyState) : Prop :=
  ∀ k, alistGet st.map k = lastTraceValue st.trace k

theorem copyStep_bindsLast {st : CopyState} {f : Str} (h : BindsLast st) :
    BindsLast (copyStep st f) := by
  by_cases him : isImageFile f
  · unfold copyStep
    rw [if_pos him]
    intro k
    rw [alistGet_insert]
    unfold lastTraceValue
    rw [List.filter_append]
    by_cases hk : f = k
    · subst hk
      simp [List.getLast?_concat]
    · have hbeq : (f == k) = false := beq_eq_false_iff_ne.mpr hk
      simp only [List.filter_cons, hbeq, Bool.false_eq_true, if_false,
        List.filter_nil, List.append_nil]
      rw [if_neg hk]
      exact h k
  · unfold copyStep
    rw [if_neg him]
    exact h

theorem foldl_bindsLast :
    ∀ (files : List Str) (st : CopyState), BindsLast st →
      BindsLast (files.foldl copyStep st)
  | [], _, h => h
  | f :: fs, st, h => foldl_bindsLast fs (copyStep st f) (copyStep_bindsLast h)

/-- **C1, amended:** the rename map binds every source basename to the
resolved output name assigned to the *last*-encountered file with that
basename in traversal order (each later file with the same basename
overwrites the binding, while the earlier copies stay on disk). -/
theorem C1_map_binds_last (initialDir files : List Str) (k : Str) :
    alistGet (copy_assets initialDir files).map k =
      lastTraceValue (copy_assets initialDir files).trace k :=
  foldl_bindsLast files { map := [], existing := initialDir, trace := [] }
    (fun _ => rfl) k

/-- Two traversal-ordered files that share the basename `a.png`. -/
def twoSameFiles : List Str :=
  ["a.png".toList, "a.png".toList]

/-- **C1, counterexample to the claim as stated:** after processing two
files both named `a.png`, the first is copied to `a.png` and the second to
`a_1.png`, and the map binds `a.png` to `a_1.png` — the *second* file's
resolved name, not the first's.  Later files with the same basename do
change the binding. -/
theorem C1_counterexample :
    (copy_assets [] twoSameFiles).trace =
      [("a.png".toList, "a.png".toList), ("a.png".toList, "a_1.png".toList)] ∧
    alistGet (copy_assets [] twoSameFiles).map ("a.png".toList) =
      some ("a_1.png".toList) ∧
    ("a_1.png".toList : Str) ≠ "a.png".toList := by
  refine ⟨by decide, by decide, by decide⟩

theorem alistInsert_values_subset {β : Type} (m : List (Str × β)) (key : Str) (val : β) :
    ∀ w ∈ (alistInsert m key val).map Prod.snd, w ∈ m.map Prod.snd ∨ w = val := by
  induction m with
  | nil => simp [alistInsert]
  | cons e rest ih =>
    obtain ⟨k0, v0⟩ := e
    by_cases h0 : k0 = key
    · subst h0
      simp only [alistInsert, if_pos rfl, List.map_cons]
      intro w hw
      rcases List.mem_cons.mp hw with h | h
      · exact Or.inr h
      · exact Or.inl (List.mem_cons_of_mem _ h)
    · simp only [alistInsert, if_neg h0, List.map_cons]
      intro w hw
      rcases List.mem_cons.mp hw with h | h
      · exact Or.inl (h ▸ List.mem_cons_self _ _)
      · rcases ih w h with h2 | h2
        · exact Or.inl (List.mem_cons_of_mem _ h2)
        · exact Or.inr h2

theorem alistInsert_values_nodup {β : Type} :
    ∀ {m : List (Str × β)} {key : Str} {val : β},
      (m.map Prod.snd).Nodup → val ∉ m.map Prod.snd →
      ((alistInsert m key val).map Prod.snd).Nodup := by
  intro m
  induction m with
  | nil =>
    intro key val _ _
    simp [alistInsert]
  | cons e rest ih =>
    intro key val hnd hval
    obtain ⟨k0, v0⟩ := e
    simp only [List.map_cons, List.nodup_cons] at hnd
    obtain ⟨hv0, hrest⟩ := hnd
    simp only [List.map_cons, List.mem_cons] at hval
    push_neg at hval
    obtain ⟨hvv0, hvrest⟩ := hval
    by_cases h0 : k0 = key
    · subst h0
      have hins : alistInsert ((k0, v0) :: rest) k0 val = (k0, val) :: rest := by
        simp [alistInsert]
      rw [hins]
      simp only [List.map_cons, List.nodup_cons]
      exact ⟨hvrest, hrest⟩
    · simp only [alistInsert, if_neg h0, List.map_cons, List.nodup_cons]
      refine ⟨?_, ih hrest hvrest⟩
      intro hmem
      rcases alistInsert_values_subset rest key val v0 hmem with h | h
      · exact hv0 h
      · exact hvv0 h.symm

/-- C2 invariant carried through the walk. -/
def NoClobber (initialDir : List Str) (st : CopyState) : Prop :=
  (∀ d ∈ st.trace.map Prod.snd, d ∈ st.existing) ∧
  (st.trace.map Prod.snd).Nodup ∧
  (∀ x ∈ initialDir, x ∈ st.existing) ∧
  (∀ d ∈ st.trace.map Prod.snd, d ∉ initialDir) ∧
  (st.map.map Prod.snd).Nodup ∧
  (∀ v ∈ st.map.map Prod.snd, v ∈ st.existing) ∧
  (∀ e ∈ st.trace,
    e.2 = e.1 ∨ ∃ c, 1 ≤ c ∧ e.2 = suffixedName (splitext e.1).1 (splitext e.1).2 c)

theorem copyStep_noClobber {initialDir : List Str} {st : CopyState} {f : Str}
    (h : NoClobber initialDir st) : NoClobber initialDir (copyStep st f) := by
  by_cases him : isImageFile f
  · obtain ⟨h1, h2, h3, h4, h5, h6, h7⟩ := h
    have hfresh : resolveDst f st.existing ∉ st.existing := resolveDst_not_mem f st.existing
    unfold copyStep
    rw [if_pos him]
    refine ⟨?_, ?_, ?_, ?_, ?_, ?_, ?_⟩
    · intro d hd
      simp only [List.map_append, List.map_cons, List.map_nil] at hd
      rcases List.mem_append.mp hd with hh | hh
      · exact List.mem_append.mpr (Or.inl (h1 d hh))
      · simp only [List.mem_singleton] at hh
        subst hh
        exact List.mem_append.mpr (Or.inr (List.mem_singleton.mpr rfl))
    · simp only [List.map_append, List.map_cons, List.map_nil]
      rw [List.nodup_append]
      refine ⟨h2, List.nodup_singleton _, ?_⟩
      intro d hd hmem
      simp only [List.mem_singleton] at hmem
      subst hmem
      exact hfresh (h1 _ hd)
    · intro x hx
      exact List.mem_append.mpr (Or.inl (h3 x hx))
    · intro d hd
      simp only [List.map_append, List.map_cons, List.map_nil] at hd
      rcases List.mem_append.mp hd with hh | hh
      · exact h4 d hh
      · simp only [List.mem_singleton] at hh
        subst hh
        intro hinit
        exact hfresh (h3 _ hinit)
    · apply alistInsert_values_nodup h5
      intro hmem
      exact hfresh (h6 _ hmem)
    · intro v hv
      rcases alistInsert_values_subset st.map f (resolveDst f st.existing) v hv with hh | hh
      · exact List.mem_append.mpr (Or.inl (h6 v hh))
      · subst hh
        exact List.mem_append.mpr (Or.inr (List.mem_singleton.mpr rfl))
    · intro e he
      rcases List.mem_append.mp he with hh | hh
      · exact h7 e hh
      · simp only [List.mem_singleton] at hh
        subst hh
        unfold resolveDst
        by_cases hf : f ∈ st.existing
        · rw [if_pos hf]
          obtain ⟨c2, hc2, heq⟩ := @findFree_shape (splitext f).1 (splitext f).2
            st.existing (10 ^ (maxLen st.existing + 1)) 1
          exact Or.inr ⟨c2, hc2, heq⟩
        · rw [if_neg hf]
          exact Or.inl rfl
  · unfold copyStep
    rw [if_neg him]
    exact h

theorem foldl_noClobber (initialDir : List Str) :
    ∀ (files : List Str) (st : CopyState), NoClobber initialDir st →
      NoClobber initialDir (files.foldl copyStep st)
  | [], _, h => h
  | f :: fs, st, h => foldl_noClobber initialDir fs (copyStep st f) (copyStep_noClobber h)

theorem copy_assets_noClobber (initialDir files : List Str) :
    NoClobber initialDir (copy_assets initialDir files) := by
  apply foldl_noClobber
  refine ⟨?_, ?_, ?_, ?_, ?_, ?_, ?_⟩ <;> simp

/-- **C2:** `copy_assets` never overwrites an output file: the destination
names it assigns are pairwise distinct and distinct from everything already
in the output directory; each is either the original basename or a suffixed
`name_c.ext` with `c ≥ 1`; the rename map's value set has no duplicates;
and concretely, two files both named `a.png` yield the two distinct outputs
`a.png` and `a_1.png`. -/
theorem C2_dedupe_no_overwrite :
    (∀ initialDir files : List Str,
      ((copy_assets initialDir files).trace.map Prod.snd).Nodup ∧
      (∀ d ∈ (copy_assets initialDir files).trace.map Prod.snd, d ∉ initialDir) ∧
      ((copy_assets initialDir files).map.map Prod.snd).Nodup ∧
      (∀ e ∈ (copy_assets initialDir files).trace,
        e.2 = e.1 ∨
          ∃ c, 1 ≤ c ∧ e.2 = suffixedName (splitext e.1).1 (splitext e.1).2 c)) ∧
    (copy_assets [] twoSameFiles).trace.map Prod.snd =
      ["a.png".toList, "a_1.png".toList] ∧
    ("a.png".toList : Str) ≠ "a_1.png".toList := by
  refine ⟨?_, by decide, by decide⟩
  intro initialDir files
  obtain ⟨_, h2, _, h4, h5, _, h7⟩ := copy_assets_noClobber initialDir files
  exact ⟨h2, h4, h5, h7⟩

/-! ## Reference Rewriter (`update_image_references`)

`re.sub(r'!\[([^\]]*)\]\(([^\)]+)\)', replace_image, md_content)`: scan the
text left to right; at each position the pattern matches exactly when the
text reads `![`, then the (possibly empty) run of characters up to the
first `]`, then `](`, then a non-empty run of characters up to the first
`)`, then `)` — the regex has no alternation, so matching is
deterministic.  Matches are replaced and scanning resumes after the match;
non-matching characters are copied. -/

/-- Attempt the image-embed pattern at the head of the text: on success,
return the alt text, the path and the remaining text after the match. -/
def tryMatch : Str → Option (Str × Str × Str)
  | c1 :: c2 :: rest =>
    if c1 = '!' ∧ c2 = '[' then
      match rest.dropWhile (fun c => c != ']') with
      | d1 :: d2 :: r2 =>
        if d1 = ']' ∧ d2 = '(' then
          match r2.dropWhile (fun c => c != ')') with
          | e1 :: rest2 =>
            if e1 = ')' ∧ r2.takeWhile (fun c => c != ')') ≠ [] then
              some (rest.takeWhile (fun c => c != ']'),
                    r2.takeWhile (fun c => c != ')'), rest2)
            else none
          | [] => none
        else none
      | _ => none
    else none
  | _ => none

theorem takeWhile_append_of_all {p : Char → Bool} :
    ∀ (a : Str) {c : Char} (z : Str), (∀ x ∈ a, p x = true) → p c = false →
      (a ++ c :: z).takeWhile p = a := by
  intro a
  induction a with
  | nil =>
    intro c z _ hc
    simp [List.takeWhile_cons, hc]
  | cons x a2 ih =>
    intro c z ha hc
    have hx : p x = true := ha x (List.mem_cons_self _ _)
    simp only [List.cons_append, List.takeWhile_cons, hx, if_true]
    rw [ih z (fun y hy => ha y (List.mem_cons_of_mem _ hy)) hc]

theorem dropWhile_append_of_all {p : Char → Bool} :
    ∀ (a : Str) {c : Char} (z : Str), (∀ x ∈ a, p x = true) → p c = false →
      (a ++ c :: z).dropWhile p = c :: z := by
  intro a
  induction a with
  | nil =>
    intro c z _ hc
    simp [List.dropWhile_cons, hc]
  | cons x a2 ih =>
    intro c z ha hc
    have hx : p x = true := ha x (List.mem_cons_self _ _)
    simp only [List.cons_append, List.dropWhile_cons, hx, if_true]
    exact ih z (fun y hy => ha y (List.mem_cons_of_mem _ hy)) hc

/-- A successful head match decomposes the text into the full embed
syntax with an `]`-free alt and a non-empty `)`-free path. -/
theorem tryMatch_some_shape {l alt path rest : Str}
    (h : tryMatch l = some (alt, path, rest)) :
    l = '!' :: '[' :: (alt ++ ']' :: '(' :: (path ++ ')' :: rest)) ∧
      (∀ c ∈ alt, (c != ']') = true) ∧
      (∀ c ∈ path, (c != ')') = true) ∧ path ≠ [] := by
  match l with
  | [] => simp [tryMatch] at h
  | [c1] => simp [tryMatch] at h
  | c1 :: c2 :: r =>
    simp only [tryMatch] at h
    by_cases h12 : c1 = '!' ∧ c2 = '['
    · obtain ⟨rfl, rfl⟩ := h12
      rw [if_pos ⟨rfl, rfl⟩] at h
      cases hd : r.dropWhile (fun c => c != ']') with
      | nil =>
        simp only [hd] at h
        simp at h
      | cons d1 dtl =>
        cases dtl with
        | nil =>
          simp only [hd] at h
          simp at h
        | cons d2 r2 =>
          simp only [hd] at h
          by_cases hd12 : d1 = ']' ∧ d2 = '('
          · obtain ⟨rfl, rfl⟩ := hd12
            rw [if_pos ⟨rfl, rfl⟩] at h
            cases he : r2.dropWhile (fun c => c != ')') with
            | nil =>
              simp only [he] at h
              simp at h
            | cons e1 rest3 =>
              simp only [he] at h
              by_cases hcond : e1 = ')' ∧ r2.takeWhile (fun c => c != ')') ≠ []
              · obtain ⟨rfl, hne⟩ := hcond
                rw [if_pos ⟨rfl, hne⟩] at h
                simp only [Option.some.injEq, Prod.mk.injEq] at h
                obtain ⟨halt, hpath, hrest⟩ := h
                subst halt
                subst hpath
                subst hrest
                refine ⟨?_, ?_, ?_, hne⟩
                · have hr : r = r.takeWhile (fun c => c != ']') ++
                      (']' :: '(' :: r2) := by
                    rw [← hd, List.takeWhile_append_dropWhile]
                  have hr2 : r2 = r2.takeWhile (fun c => c != ')') ++
                      (')' :: rest3) := by
                    rw [← he, List.takeWhile_append_dropWhile]
                  conv_lhs => rw [hr, hr2]
                · exact fun c hc => @List.mem_takeWhile_imp Char (fun x => x != ']') r c hc
                · exact fun c hc => @List.mem_takeWhile_imp Char (fun x => x != ')') r2 c hc
              · rw [if_neg hcond] at h
                simp at h
          · rw [if_neg hd12] at h
            simp at h
    · rw [if_neg h12] at h
      simp at h

/-- Conversely, an embed with an `]`-free alt and a non-empty `)`-free
path, followed by anything, matches at the head and leaves the follower. -/
theorem tryMatch_embed {alt path rest : Str}
    (halt : ∀ c ∈ alt, (c != ']') = true)
    (hpath : ∀ c ∈ path, (c != ')') = true) (hne : path ≠ []) :
    tryMatch ('!' :: '[' :: (alt ++ ']' :: '(' :: (path ++ ')' :: rest))) =
      some (alt, path, rest) := by
  have hd : (alt ++ ']' :: '(' :: (path ++ ')' :: rest)).dropWhile
      (fun c => c != ']') = ']' :: '(' :: (path ++ ')' :: rest) :=
    dropWhile_append_of_all alt _ halt (by decide)
  have ht : (alt ++ ']' :: '(' :: (path ++ ')' :: rest)).takeWhile
      (fun c => c != ']') = alt :=
    takeWhile_append_of_all alt _ halt (by decide)
  have hd2 : (path ++ ')' :: rest).dropWhile (fun c => c != ')') =
      ')' :: rest :=
    dropWhile_append_of_all path _ hpath (by decide)
  have ht2 : (path ++ ')' :: rest).takeWhile (fun c => c != ')') = path :=
    takeWhile_append_of_all path _ hpath (by decide)
  simp only [tryMatch, hd, hd2, ht, ht2, hne, ne_eq, not_false_iff,
    and_self, and_true, true_and, if_true]

theorem tryMatch_rest_length {l alt path rest : Str}
    (h : tryMatch l = some (alt, path, rest)) : rest.length < l.length := by
  have hs := (tryMatch_some_shape h).1
  rw [hs]
  simp only [List.length_cons, List.length_append]
  omega

/-- The scan of `re.sub`, fuel-driven; `pyReSub` supplies fuel `length`
which is always sufficient (each step strictly shrinks the text). -/
def rewriteFuel (repl : Str → Str → Str) : Nat → Str → Str
  | _, [] => []
  | 0, l => l
  | f + 1, c :: cs =>
    match tryMatch (c :: cs) with
    | some (alt, path, rest) => repl alt path ++ rewriteFuel repl f rest
    | none => c :: rewriteFuel repl f cs

/-- `re.sub(pattern, repl, s)`. -/
def pyReSub (repl : Str → Str → Str) (s : Str) : Str :=
  rewriteFuel repl s.length s

theorem rewriteFuel_fuel (repl : Str → Str → Str) :
    ∀ (f : Nat) (l : Str) (g : Nat), l.length ≤ f → l.length ≤ g →
      rewriteFuel repl f l = rewriteFuel repl g l := by
  intro f
  induction f with
  | zero =>
    intro l g hf _
    have : l = [] := List.length_eq_zero.mp (by omega)
    subst this
    cases g <;> rfl
  | succ f0 ih =>
    intro l g hf hg
    cases l with
    | nil => cases g <;> rfl
    | cons c cs =>
      cases g with
      | zero => simp at hg
      | succ g0 =>
        cases htm : tryMatch (c :: cs) with
        | none =>
          simp only [rewriteFuel, htm]
          simp only [List.length_cons] at hf hg
          rw [ih cs g0 (by omega) (by omega)]
        | some t =>
          obtain ⟨alt, path, rest⟩ := t
          have hlen := tryMatch_rest_length htm
          simp only [rewriteFuel, htm]
          simp only [List.length_cons] at hf hg hlen
          rw [ih rest g0 (by omega) (by omega)]

theorem pyReSub_nil (repl : Str → Str → Str) : pyReSub repl [] = [] :=
  rfl

theorem pyReSub_cons_some {repl : Str → Str → Str} {c : Char} {cs alt path rest : Str}
    (h : tryMatch (c :: cs) = some (alt, path, rest)) :
    pyReSub repl (c :: cs) = repl alt path ++ pyReSub repl rest := by
  unfold pyReSub
  have hlen := tryMatch_rest_length h
  simp only [List.length_cons] at hlen ⊢
  simp only [rewriteFuel, h]
  rw [rewriteFuel_fuel repl cs.length rest rest.length (by omega) (le_refl _)]

theorem pyReSub_cons_none {repl : Str → Str → Str} {c : Char} {cs : Str}
    (h : tryMatch (c :: cs) = none) :
    pyReSub repl (c :: cs) = c :: pyReSub repl cs := by
  unfold pyReSub
  simp only [List.length_cons, rewriteFuel, h]

/-- `os.path.basename`: everything after the last `/`. -/
def basename (p : Str) : Str :=
  (p.reverse.takeWhile (fun c => c != '/')).reverse

/-- The markdown image-embed syntax `![alt](path)`. -/
def mkEmbed (alt path : Str) : Str :=
  '!' :: '[' :: (alt ++ ']' :: '(' :: (path ++ [')']))

theorem mkEmbed_append (alt path t : Str) :
    mkEmbed alt path ++ t =
      '!' :: '[' :: (alt ++ ']' :: '(' :: (path ++ ')' :: t)) := by
  simp [mkEmbed]

/-- `replace_image` of `blog_generator.py`: both the mapped and the
unmapped branch use the `/images/` prefix. -/
def replaceImage (m : List (Str × Str)) (alt path : Str) : Str :=
  match alistGet m (basename path) with
  | some newName => mkEmbed alt ("/images/".toList ++ newName)
  | none => mkEmbed alt ("/images/".toList ++ basename path)

/-- `update_image_references` of `blog_generator.py`. -/
def update_image_references (m : List (Str × Str)) (md : Str) : Str :=
  pyReSub (replaceImage m) md

/-- `replace_image` of `blog_generator/md_to_html.py`: the mapped branch
uses the `../images/` prefix, the unmapped branch uses `/images/`. -/
def replaceImageV2 (m : List (Str × Str)) (alt path : Str) : Str :=
  match alistGet m (basename path) with
  | some newName => mkEmbed alt ("../images/".toList ++ newName)
  | none => mkEmbed alt ("/images/".toList ++ basename path)

/-- `update_image_references` of `blog_generator/md_to_html.py`. -/
def update_image_references_v2 (m : List (Str × Str)) (md : Str) : Str :=
  pyReSub (replaceImageV2 m) md

/-- **C5, amended:** `blog_generator.py`'s rewriter replaces every image
embed `![alt](path)` by `![alt](/images/<name>)` — the mapped name when the
basename of `path` is a key of the rename map, the unchanged basename
otherwise, with the *same* `/images/` prefix in both cases; it copies alt
text verbatim, never fails on unknown assets, and leaves all text without
an embed at any position unchanged (also across a match-free prefix).  The
`blog_generator/md_to_html.py` variant differs: its mapped branch uses the
`../images/` prefix (see the counterexample). -/
theorem C5_rewriter :
    (∀ (m : List (Str × Str)) (alt path : Str),
      (∀ c ∈ alt, (c != ']') = true) → (∀ c ∈ path, (c != ')') = true) →
      path ≠ [] →
      update_image_references m (mkEmbed alt path) =
        mkEmbed alt ("/images/".toList ++ (alistGet m (basename path)).getD (basename path))) ∧
    (∀ (m : List (Str × Str)) (s : Str), (∀ i, tryMatch (s.drop i) = none) →
      update_image_references m s = s) ∧
    (∀ (m : List (Str × Str)) (s t : Str),
      (∀ i, i < s.length → tryMatch ((s ++ t).drop i) = none) →
      update_image_references m (s ++ t) = s ++ update_image_references m t) ∧
    update_image_references [("a.png".toList, "a_1.png".toList)]
        ("start ![x](imgs/a.png) mid ![y](b.png) end".toList) =
      "start ![x](/images/a_1.png) mid ![y](/images/b.png) end".toList := by
  refine ⟨?_, ?_, ?_, by decide⟩
  · intro m alt path halt hpath hne
    have hm : tryMatch ('!' :: '[' :: (alt ++ ']' :: '(' :: (path ++ ')' :: []))) =
        some (alt, path, []) := tryMatch_embed halt hpath hne
    unfold update_image_references
    have hform : mkEmbed alt path =
        '!' :: '[' :: (alt ++ ']' :: '(' :: (path ++ ')' :: [])) := by
      simp [mkEmbed]
    rw [hform, pyReSub_cons_some hm, pyReSub_nil, List.append_nil]
    unfold replaceImage
    cases hg : alistGet m (basename path) <;> simp [hg]
  · intro m s h
    induction s with
    | nil => exact pyReSub_nil _
    | cons c cs ih =>
      have h0 := h 0
      rw [List.drop_zero] at h0
      unfold update_image_references at ih ⊢
      rw [pyReSub_cons_none h0]
      rw [ih (fun i => by have hi := h (i + 1); rwa [List.drop_succ_cons] at hi)]
  · intro m s t h
    induction s with
    | nil => simp
    | cons c cs ih =>
      have h0 := h 0 (by simp)
      rw [List.drop_zero, List.cons_append] at h0
      unfold update_image_references at ih ⊢
      rw [List.cons_append, pyReSub_cons_none h0]
      rw [ih (fun i hi => by
        have hj := h (i + 1) (by simpa using Nat.succ_lt_succ hi)
        rwa [List.cons_append, List.drop_succ_cons] at hj)]
      simp

/-- Witness for `C5_rewriter`: a mapped asset in a subdirectory is rewritten
to its assigned name under `/images/`. -/
theorem C5_rewriter_witness :
    update_image_references [("a.png".toList, "b.png".toList)]
        (mkEmbed ("alt text".toList) ("imgs/a.png".toList)) =
      mkEmbed ("alt text".toList) ("/images/b.png".toList) := by
  have h := C5_rewriter.1 [("a.png".toList, "b.png".toList)] ("alt text".toList)
    ("imgs/a.png".toList) (by decide) (by decide) (by decide)
  rw [h]
  decide

/-- **C5, counterexample to the claim as stated:** the
`blog_generator/md_to_html.py` rewriter does *not* use one and the same
prefix in both cases: with the map `{a.png ↦ a.png}`, the mapped embed
`![x](a.png)` is rewritten under `../images/` while the unmapped embed
`![y](b.png)` is rewritten under `/images/`, so no single prefix accounts
for both rewrites. -/
theorem C5_counterexample :
    ¬ ∃ pre : Str,
      update_image_references_v2 [("a.png".toList, "a.png".toList)]
          ("![x](a.png)".toList) = "![x](".toList ++ (pre ++ "a.png)".toList) ∧
      update_image_references_v2 [("a.png".toList, "a.png".toList)]
          ("![y](b.png)".toList) = "![y](".toList ++ (pre ++ "b.png)".toList) := by
  rintro ⟨pre, h1, h2⟩
  have e1 : update_image_references_v2 [("a.png".toList, "a.png".toList)]
      ("![x](a.png)".toList) =
      "![x](".toList ++ ("../images/".toList ++ "a.png)".toList) := by decide
  have e2 : update_image_references_v2 [("a.png".toList, "a.png".toList)]
      ("![y](b.png)".toList) =
      "![y](".toList ++ ("/images/".toList ++ "b.png)".toList) := by decide
  rw [e1] at h1
  rw [e2] at h2
  have p1 : ("../images/".toList : Str) ++ "a.png)".toList = pre ++ "a.png)".toList :=
    List.append_cancel_left h1
  have p2 : ("/images/".toList : Str) ++ "b.png)".toList = pre ++ "b.png)".toList :=
    List.append_cancel_left h2
  have q1 : ("../images/".toList : Str) = pre := List.append_cancel_right p1
  have q2 : ("/images/".toList : Str) = pre := List.append_cancel_right p2
  rw [← q1] at q2
  exact absurd q2 (by decide)

/-! ## Idempotence of the Reference Rewriter (C10)

The key invariant: a text and its rewrite agree character for character
except inside the path slot of image embeds, where both sides hold a
non-empty `)`-free segment.  The relation `Al` below captures exactly this
alignment; rewriting produces a text aligned with its input, and aligned
texts match the embed pattern at the same positions. -/

/-- Character alignment between a text and its rewrite: equal characters,
except that an embed's `](path)` region may carry different non-empty
`)`-free path segments on the two sides. -/
inductive Al : Str → Str → Prop
  | nil : Al [] []
  | chr (c : Char) {x y : Str} : Al x y → Al (c :: x) (c :: y)
  | seg {p q x y : Str} :
      (∀ c ∈ p, (c != ')') = true) → (∀ c ∈ q, (c != ')') = true) →
      p ≠ [] → q ≠ [] → Al x y →
      Al (']' :: '(' :: (p ++ ')' :: x)) (']' :: '(' :: (q ++ ')' :: y))

/-- A closing parenthesis on the right of an alignment has one on the
left as well (paths are `)`-free, so `)` only occurs at aligned spots). -/
theorem al_paren_mem : ∀ {x y : Str}, Al x y → ')' ∈ y → ')' ∈ x := by
  intro x y h
  induction h with
  | nil => intro h0; cases h0
  | chr c hxy ih =>
    intro h0
    rcases List.mem_cons.mp h0 with h1 | h1
    · exact h1 ▸ List.mem_cons_self _ _
    · exact List.mem_cons_of_mem _ (ih h1)
  | seg hp hq hpn hqn hxy ih =>
    intro _
    refine List.mem_cons_of_mem _ (List.mem_cons_of_mem _ ?_)
    exact List.mem_append.mpr (Or.inr (List.mem_cons_self _ _))

/-- First-occurrence decomposition of a list at a member. -/
theorem firstOcc {c : Char} : ∀ {l : Str}, c ∈ l →
    ∃ s t, l = s ++ c :: t ∧ ∀ z ∈ s, z ≠ c := by
  intro l
  induction l with
  | nil => intro h; cases h
  | cons a l2 ih =>
    intro h
    by_cases hac : a = c
    · subst hac
      exact ⟨[], l2, rfl, by simp⟩
    · rcases List.mem_cons.mp h with h1 | h1
      · exact absurd h1.symm hac
      · obtain ⟨s, t, hst, hs⟩ := ih h1
        refine ⟨a :: s, t, by rw [hst]; rfl, ?_⟩
        intro z hz
        rcases List.mem_cons.mp hz with h2 | h2
        · exact h2 ▸ hac
        · exact hs z h2

/-- What remains of an alignment after consuming the first `]`: either the
alignment continues, or the `]` opened an embed's path segment. -/
def Post (t1 t2 : Str) : Prop :=
  Al t1 t2 ∨
    ∃ p q x y,
      (∀ c ∈ p, (c != ')') = true) ∧ (∀ c ∈ q, (c != ')') = true) ∧
      p ≠ [] ∧ q ≠ [] ∧ Al x y ∧
      t1 = '(' :: (p ++ ')' :: x) ∧ t2 = '(' :: (q ++ ')' :: y)

/-- Walking an alignment across an `]`-free prefix up to a `]`: the left
side shares the prefix and the `]`, and what follows is either a continued
alignment or an opened path segment. -/
theorem al_first_bracket :
    ∀ {u2 v2 : Str}, Al u2 v2 → ∀ {A tail2 : Str}, v2 = A ++ ']' :: tail2 →
      (∀ c ∈ A, (c != ']') = true) →
      ∃ tail1, u2 = A ++ ']' :: tail1 ∧ Post tail1 tail2 := by
  intro u2 v2 hal
  induction hal with
  | nil =>
    intro A tail2 hv2 _
    cases A <;> simp at hv2
  | chr c hxy ih =>
    intro A tail2 hv2 hA
    cases A with
    | nil =>
      simp only [List.nil_append, List.cons.injEq] at hv2
      obtain ⟨hc, hy⟩ := hv2
      subst hc
      subst hy
      exact ⟨_, by simp, Or.inl hxy⟩
    | cons a A2 =>
      simp only [List.cons_append, List.cons.injEq] at hv2
      obtain ⟨hc, hy⟩ := hv2
      subst hc
      obtain ⟨tail1, hx, hpost⟩ := ih hy (fun z hz => hA z (List.mem_cons_of_mem _ hz))
      exact ⟨tail1, by rw [List.cons_append, hx], hpost⟩
  | seg hp hq hpn hqn hxy =>
    rename_i p q x y ih
    intro A tail2 hv2 hA
    cases A with
    | nil =>
      simp only [List.nil_append, List.cons.injEq] at hv2
      obtain ⟨_, hy⟩ := hv2
      subst hy
      exact ⟨_, by simp, Or.inr ⟨p, q, x, y, hp, hq, hpn, hqn, hxy, rfl, rfl⟩⟩
    | cons a A2 =>
      simp only [List.cons_append, List.cons.injEq] at hv2
      obtain ⟨hc, _⟩ := hv2
      have := hA a (List.mem_cons_self _ _)
      rw [← hc] at this
      simp at this

/-- Across an alignment whose right side begins with a non-empty `)`-free
run followed by `)`, the left side also decomposes at a `)` after a
non-empty `)`-free run. -/
theorem al_paren_decomp {x3 w : Str} (hal : Al x3 w) :
    ∀ {P R : Str}, w = P ++ ')' :: R → (∀ c ∈ P, (c != ')') = true) → P ≠ [] →
      ∃ s t, x3 = s ++ ')' :: t ∧ (∀ z ∈ s, (z != ')') = true) ∧ s ≠ [] := by
  cases hal with
  | nil =>
    intro P R hw _ _
    cases P <;> simp at hw
  | chr c hxy =>
    intro P R hw hP hPne
    cases P with
    | nil => exact absurd rfl hPne
    | cons P0 P2 =>
      simp only [List.cons_append, List.cons.injEq] at hw
      obtain ⟨hc, hy⟩ := hw
      subst hc
      have hmem : ')' ∈ P2 ++ ')' :: R :=
        List.mem_append.mpr (Or.inr (List.mem_cons_self _ _))
      rw [← hy] at hmem
      have hmem2 := al_paren_mem hxy hmem
      obtain ⟨s0, t, hst, hs0⟩ := firstOcc hmem2
      refine ⟨c :: s0, t, by rw [hst]; rfl, ?_, by simp⟩
      intro z hz
      rcases List.mem_cons.mp hz with h1 | h1
      · subst h1
        exact hP z (List.mem_cons_self _ _)
      · simpa using hs0 z h1
  | seg hp hq hpn hqn hxy =>
    rename_i p q x y
    intro P R hw hP hPne
    refine ⟨']' :: '(' :: p, x, by simp, ?_, by simp⟩
    intro z hz
    rcases List.mem_cons.mp hz with h1 | h1
    · subst h1; decide
    · rcases List.mem_cons.mp h1 with h2 | h2
      · subst h2; decide
      · exact hp z h2

/-- Aligned texts match the embed pattern together: a head match on the
right transfers to a head match on the left. -/
theorem al_tryMatch_some {u v : Str} (hal : Al u v) {A P R : Str}
    (hv : tryMatch v = some (A, P, R)) :
    ∃ a p r, tryMatch u = some (a, p, r) := by
  obtain ⟨hshape, hA, hP, hPne⟩ := tryMatch_some_shape hv
  subst hshape
  cases hal with
  | chr c hal1 =>
    cases hal1 with
    | chr c2 hal2 =>
      obtain ⟨tail1, hx2, hpost⟩ := al_first_bracket hal2 rfl hA
      subst hx2
      rcases hpost with hal3 | ⟨p, q, x, y, hp, hq, hpn, hqn, hxy, ht1, ht2⟩
      · cases hal3 with
        | chr c3 hal4 =>
          obtain ⟨s, t, hx3, hs, hsne⟩ := al_paren_decomp hal4 rfl hP hPne
          subst hx3
          exact ⟨A, s, t, tryMatch_embed hA hs hsne⟩
      · subst ht1
        exact ⟨A, p, x, tryMatch_embed hA hp hpn⟩

/-- A head-match failure transfers along an alignment. -/
theorem al_tryMatch_none {u v : Str} (hal : Al u v)
    (hu : tryMatch u = none) : tryMatch v = none := by
  cases hv : tryMatch v with
  | none => rfl
  | some t =>
    obtain ⟨A, P, R⟩ := t
    obtain ⟨a, p, r, hsome⟩ := al_tryMatch_some hal hv
    rw [hu] at hsome
    cases hsome

theorem al_append_left (a : Str) {x y : Str} (h : Al x y) : Al (a ++ x) (a ++ y) := by
  induction a with
  | nil => simpa
  | cons c a2 ih => exact Al.chr c ih

theorem basename_mem {c : Char} {p : Str} (h : c ∈ basename p) : c ∈ p := by
  unfold basename at h
  rw [List.mem_reverse] at h
  have hsub : (p.reverse.takeWhile (fun x => x != '/')).Sublist p.reverse :=
    List.takeWhile_sublist _
  exact List.mem_reverse.mp (hsub.mem h)

theorem basename_no_slash {p : Str} : ∀ c ∈ basename p, (c != '/') = true := by
  intro c hc
  unfold basename at hc
  rw [List.mem_reverse] at hc
  exact @List.mem_takeWhile_imp Char (fun x => x != '/') p.reverse c hc

theorem basename_images {nm : Str} (h : ∀ c ∈ nm, (c != '/') = true) :
    basename ("/images/".toList ++ nm) = nm := by
  unfold basename
  rw [List.reverse_append]
  have hrev : ("/images/".toList).reverse = '/' :: "segami/".toList := by decide
  rw [hrev,
    takeWhile_append_of_all nm.reverse _ (fun x hx => h x (List.mem_reverse.mp hx))
      (by decide)]
  exact List.reverse_reverse nm

/-- A plain basename: non-empty and free of `]`, `)` and `/`. -/
def plainName (s : Str) : Prop :=
  s ≠ [] ∧ (∀ c ∈ s, (c != ']') = true) ∧ (∀ c ∈ s, (c != ')') = true) ∧
    (∀ c ∈ s, (c != '/') = true)

instance : DecidablePred plainName := fun s => by
  unfold plainName
  infer_instance

/-- The hypotheses of the idempotence claim: keys and values of the rename
map are plain basenames, and no value that also occurs as a key is bound
to a different name. -/
def cleanMap (m : List (Str × Str)) : Prop :=
  (∀ e ∈ m, plainName e.1 ∧ plainName e.2) ∧
  (∀ e ∈ m, alistGet m e.2 = some e.2 ∨ alistGet m e.2 = none)

instance : DecidablePred cleanMap := fun m => by
  unfold cleanMap
  infer_instance

theorem alistGet_mem {β : Type} : ∀ {m : List (Str × β)} {k : Str} {v : β},
    alistGet m k = some v → (k, v) ∈ m := by
  intro m
  induction m with
  | nil =>
    intro k v h
    simp [alistGet] at h
  | cons e rest ih =>
    intro k v h
    obtain ⟨k0, v0⟩ := e
    by_cases hk : k0 = k
    · subst hk
      rw [show alistGet ((k0, v0) :: rest) k0 = some v0 from by simp [alistGet]] at h
      injection h with h
      subst h
      exact List.mem_cons_self _ _
    · simp only [alistGet, if_neg hk] at h
      exact List.mem_cons_of_mem _ (ih h)

theorem replaceImage_eq (m : List (Str × Str)) (alt path : Str) :
    replaceImage m alt path =
      mkEmbed alt ("/images/".toList ++
        (alistGet m (basename path)).getD (basename path)) := by
  unfold replaceImage
  cases hg : alistGet m (basename path) <;> simp [hg]

theorem resolved_no_paren {m : List (Str × Str)} (hm : cleanMap m) {path : Str}
    (hpath : ∀ c ∈ path, (c != ')') = true) :
    ∀ c ∈ (alistGet m (basename path)).getD (basename path), (c != ')') = true := by
  cases hg : alistGet m (basename path) with
  | none =>
    intro c hc
    simp only [Option.getD_none] at hc
    exact hpath c (basename_mem hc)
  | some v =>
    intro c hc
    simp only [Option.getD_some] at hc
    exact ((hm.1 _ (alistGet_mem hg)).2).2.2.1 c hc

theorem resolved_no_slash {m : List (Str × Str)} (hm : cleanMap m) (path : Str) :
    ∀ c ∈ (alistGet m (basename path)).getD (basename path), (c != '/') = true := by
  cases hg : alistGet m (basename path) with
  | none =>
    intro c hc
    simp only [Option.getD_none] at hc
    exact basename_no_slash c hc
  | some v =>
    intro c hc
    simp only [Option.getD_some] at hc
    exact ((hm.1 _ (alistGet_mem hg)).2).2.2.2 c hc

theorem np_no_paren {nm : Str} (h : ∀ c ∈ nm, (c != ')') = true) :
    ∀ c ∈ ("/images/".toList ++ nm), (c != ')') = true := by
  have hpre : ∀ ch ∈ ("/images/".toList : Str), (ch != ')') = true := by decide
  intro c hc
  rcases List.mem_append.mp hc with h1 | h1
  · exact hpre c h1
  · exact h c h1

/-- The rewrite of a text is aligned with the text (under a clean map the
replacement paths are `)`-free). -/
theorem al_rewrite (m : List (Str × Str)) (hm : cleanMap m) :
    ∀ (n : Nat) (s : Str), s.length ≤ n → Al s (update_image_references m s) := by
  intro n
  induction n with
  | zero =>
    intro s hs
    have h0 : s = [] := List.length_eq_zero.mp (by omega)
    subst h0
    rw [update_image_references, pyReSub_nil]
    exact Al.nil
  | succ n0 ih =>
    intro s hs
    cases s with
    | nil =>
      rw [update_image_references, pyReSub_nil]
      exact Al.nil
    | cons c cs =>
      cases htm : tryMatch (c :: cs) with
      | none =>
        rw [update_image_references, pyReSub_cons_none htm]
        simp only [List.length_cons] at hs
        exact Al.chr c (ih cs (by omega))
      | some t =>
        obtain ⟨alt, path, rest⟩ := t
        obtain ⟨hshape, halt, hpath, hpne⟩ := tryMatch_some_shape htm
        have hlen := tryMatch_rest_length htm
        simp only [List.length_cons] at hs hlen
        rw [update_image_references, pyReSub_cons_some htm, replaceImage_eq,
          hshape, mkEmbed_append]
        apply Al.chr
        apply Al.chr
        apply al_append_left
        refine Al.seg hpath (np_no_paren (resolved_no_paren hm hpath)) hpne
          (by simp) ?_
        exact ih rest (by omega)

/-- Under a clean map, the resolved name is a fixed point of resolution. -/
theorem resolved_stable {m : List (Str × Str)} (hm : cleanMap m) (path : Str) :
    (alistGet m ((alistGet m (basename path)).getD (basename path))).getD
        ((alistGet m (basename path)).getD (basename path)) =
      (alistGet m (basename path)).getD (basename path) := by
  cases hg : alistGet m (basename path) with
  | none =>
    simp [hg, Option.getD]
  | some v =>
    have h2 : alistGet m v = some v ∨ alistGet m v = none :=
      hm.2 _ (alistGet_mem hg)
    rcases h2 with h | h <;> simp [Option.getD, h]

theorem rewrite_idem_aux (m : List (Str × Str)) (hm : cleanMap m) :
    ∀ (n : Nat) (s : Str), s.length ≤ n →
      update_image_references m (update_image_references m s) =
        update_image_references m s := by
  intro n
  induction n with
  | zero =>
    intro s hs
    have h0 : s = [] := List.length_eq_zero.mp (by omega)
    subst h0
    rw [update_image_references, update_image_references, pyReSub_nil, pyReSub_nil]
  | succ n0 ih =>
    intro s hs
    cases s with
    | nil =>
      rw [update_image_references, update_image_references, pyReSub_nil, pyReSub_nil]
    | cons c cs =>
      cases htm : tryMatch (c :: cs) with
      | none =>
        simp only [List.length_cons] at hs
        unfold update_image_references
        rw [pyReSub_cons_none htm]
        have hal : Al (c :: cs) (c :: pyReSub (replaceImage m) cs) :=
          Al.chr c (al_rewrite m hm cs.length cs (le_refl _))
        have htm2 : tryMatch (c :: pyReSub (replaceImage m) cs) = none :=
          al_tryMatch_none hal htm
        rw [pyReSub_cons_none htm2]
        have h2 := ih cs (by omega)
        unfold update_image_references at h2
        rw [h2]
      | some t =>
        obtain ⟨alt, path, rest⟩ := t
        obtain ⟨hshape, halt, hpath, hpne⟩ := tryMatch_some_shape htm
        have hlen := tryMatch_rest_length htm
        simp only [List.length_cons] at hs hlen
        unfold update_image_references
        rw [pyReSub_cons_some htm, replaceImage_eq, mkEmbed_append]
        have hnp : ∀ ch ∈ ("/images/".toList ++
            (alistGet m (basename path)).getD (basename path)), (ch != ')') = true :=
          np_no_paren (resolved_no_paren hm hpath)
        have htm3 := @tryMatch_embed alt
          ("/images/".toList ++ (alistGet m (basename path)).getD (basename path))
          (pyReSub (replaceImage m) rest) halt hnp (by simp)
        rw [pyReSub_cons_some htm3, replaceImage_eq,
          basename_images (resolved_no_slash hm path), resolved_stable hm path]
        have h2 := ih rest (by omega)
        unfold update_image_references at h2
        rw [h2, mkEmbed_append]

/-- **C10:** for a rename map whose keys and values are plain basenames
(non-empty, free of `]`, `)` and `/`) and none of whose values is bound,
as a key, to a different name, the Reference Rewriter is idempotent. -/
theorem C10_rewrite_idempotent :
    ∀ m : List (Str × Str), cleanMap m → ∀ body : Str,
      update_image_references m (update_image_references m body) =
        update_image_references m body :=
  fun m hm body => rewrite_idem_aux m hm body.length body (le_refl _)

/-- A concrete clean rename map. -/
def demoMap : List (Str × Str) :=
  [("a.png".toList, "b.png".toList)]

/-- A concrete document body with a mapped and an unmapped embed. -/
def demoBody : Str :=
  "see ![fig one](pics/a.png) and ![two](c.png).".toList

/-- Witness for `C10_rewrite_idempotent` at a concrete map and body. -/
theorem C10_rewrite_idempotent_witness :
    update_image_references demoMap (update_image_references demoMap demoBody) =
      update_image_references demoMap demoBody :=
  C10_rewrite_idempotent demoMap (by decide) demoBody

/-! ## Run semantics: read failures (C8)

File reads are modelled by an explicit oracle `Str → Except Unit Str`
(`.error` models a raised `IOError`).  The main per-document loop of
`generate_blog_site` reads each file with no handler, so the first failure
propagates and aborts the run.  `generate_home_page` re-reads each of the
first ten published documents *inside a bare `try/except`* whose handler
sets `excerpt = "No preview available..."`. -/

/-- The fallback excerpt of `generate_home_page`'s exception handler. -/
def noPreviewText : Str := "No preview available...".toList

/-- The excerpt derivation of `generate_home_page` for one published blog:
re-read the source file, strip the frontmatter, truncate and de-mark; any
failure of the read degrades locally to the fallback excerpt. -/
def homeExcerpt (readF : Str → Except Unit Str) (mdFile : Str) : Str :=
  match readF mdFile with
  | .error _ => noPreviewText
  | .ok content => excerptOf (deriveBody content)

/-- The unguarded read loop of `generate_blog_site`: each document body is
read with no exception handler, so the first failure aborts the pass. -/
def readDocs (readF : Str → Except Unit Str) : List Str → Except Unit (List Str)
  | [] => .ok []
  | f :: fs =>
    match readF f with
    | .error e => .error e
    | .ok content =>
      match readDocs readF fs with
      | .error e => .error e
      | .ok rest => .ok (content :: rest)

/-- The run, as far as reads are concerned: the main pass over all
documents, then the home page composed from the first ten published
documents' excerpts (with its own read oracle: the re-read happens later
in time and may fail independently). -/
def runPipeline (readMain readHome : Str → Except Unit Str)
    (files pubs : List Str) : Except Unit (List Str × List Str) :=
  match readDocs readMain files with
  | .error e => .error e
  | .ok contents => .ok (contents, (pubs.take 10).map (homeExcerpt readHome))

/-- **C8, amended:** a read failure in the main per-document pass aborts
the whole run; but a read failure during home-page excerpt derivation is
caught locally and degrades to the fallback excerpt
`"No preview available..."` — the run completes. -/
theorem C8_read_failures :
    (∀ (readF : Str → Except Unit Str) (files : List Str) (f : Str),
      f ∈ files → readF f = .error () → readDocs readF files = .error ()) ∧
    (∀ (readF : Str → Except Unit Str) (f : Str),
      readF f = .error () → homeExcerpt readF f = noPreviewText) ∧
    (∀ (readMain readHome : Str → Except Unit Str) (files pubs : List Str)
        (cs : List Str),
      readDocs readMain files = .ok cs →
      runPipeline readMain readHome files pubs =
        .ok (cs, (pubs.take 10).map (homeExcerpt readHome))) := by
  refine ⟨?_, ?_, ?_⟩
  · intro readF files
    induction files with
    | nil =>
      intro f hf _
      cases hf
    | cons f0 rest ih =>
      intro f hf herr
      rcases List.mem_cons.mp hf with h1 | h1
      · subst h1
        simp [readDocs, herr]
      · cases hf0 : readF f0 with
        | error e =>
          simp [readDocs, hf0]
        | ok content =>
          simp [readDocs, hf0, ih f h1 herr]
  · intro readF f herr
    simp [homeExcerpt, herr]
  · intro readMain readHome files pubs cs h
    simp [runPipeline, h]

/-- Witness for `C8_read_failures`: one failing read aborts the main pass;
the same failing read during excerpt derivation is recovered locally. -/
theorem C8_read_failures_witness :
    readDocs (fun _ => .error ()) ["a.md".toList] = .error () ∧
    homeExcerpt (fun _ => .error ()) ("a.md".toList) = noPreviewText :=
  ⟨C8_read_failures.1 (fun _ => .error ()) ["a.md".toList] ("a.md".toList)
      (by simp) rfl,
    C8_read_failures.2.1 (fun _ => .error ()) ("a.md".toList) rfl⟩

/-- **C8, counterexample to the claim as stated:** with every main-pass
read succeeding and the home-page re-read failing, the run still completes
(`.ok`) and the affected document simply gets the fallback excerpt — the
re-read failure is recovered locally, not fatal. -/
theorem C8_counterexample :
    runPipeline (fun _ => .ok ("body text".toList)) (fun _ => .error ())
        ["a.md".toList] ["a.md".toList] =
      .ok (["body text".toList], [noPreviewText]) ∧
    (.ok (["body text".toList], [noPreviewText]) :
        Except Unit (List Str × List Str)) ≠ .error () := by
  exact ⟨rfl, fun h => Except.noConfusion h⟩

/-! ## Template handling (C9)

The filesystem is modelled as `Str → Option Str` (template name to
content; `none` means the file is absent).

* `blog_generator.py` has no external page template (the page is an inline
  format string); its *home* template read is wrapped in `try/except` whose
  handler substitutes a built-in fallback page — never fatal.
* `blog_generator/md_to_html.py` loads `blog_post.template` through
  `load_template`, which calls `sys.exit(1)` on `FileNotFoundError`
  (modelled as `.error`), once per rendered document — fatal, though
  assets and earlier pages have already been written; its
  `generate_home_page` opens `blog_home.template` inside `try/except`
  whose handler prints a message and `return`s — the index is skipped and
  the run completes. -/

/-- `load_template` of `blog_generator/md_to_html.py`: a missing template
file is `sys.exit(1)`. -/
def load_template (fs : Str → Option Str) (templateName : Str) : Except Unit Str :=
  match fs templateName with
  | some t => .ok t
  | none => .error ()

/-- Python `s.replace(old, new)` (all non-overlapping occurrences, left to
right), fuel-driven with sufficient fuel. -/
def pyReplaceFuel (old new : Str) : Nat → Str → Str
  | 0, s => s
  | f + 1, s =>
    match findSep old s with
    | none => s
    | some (pre, suf) => pre ++ new ++ pyReplaceFuel old new f suf

/-- Python `s.replace(old, new)`. -/
def pyReplace (s old new : Str) : Str :=
  pyReplaceFuel old new s.length s

/-- The copyright line `f'© 2024 {repo_name}'` (the source file carries
the UTF-8 mis-decoded form of the copyright sign). -/
def copyrightText (siteName : Str) : Str :=
  "Â© 2024 ".toList ++ siteName

/-- The per-document placeholder substitution of the package's second
pass (`blog_post.template`). -/
def renderPost (template title siteName content : Str) : Str :=
  pyReplace
    (pyReplace
      (pyReplace
        (pyReplace
          (pyReplace template ("\x7b\x7bTITLE\x7d\x7d".toList) title)
          ("\x7b\x7bSITE_TITLE\x7d\x7d".toList) siteName)
        ("\x7b\x7bNAVIGATION\x7d\x7d".toList) [])
      ("\x7b\x7bCONTENT\x7d\x7d".toList) content)
    ("\x7b\x7bCOPYRIGHT\x7d\x7d".toList) (copyrightText siteName)

/-- The package's second pass: for each blog (title, body-HTML), load the
page template and substitute; a missing page template aborts at the first
document. -/
def pkgRenderBlogs (fs : Str → Option Str) (blogs : List (Str × Str))
    (siteName : Str) : Except Unit (List Str) :=
  match blogs with
  | [] => .ok []
  | (title, content) :: rest =>
    match load_template fs ("blog_post.template".toList) with
    | .error e => .error e
    | .ok t =>
      match pkgRenderBlogs fs rest siteName with
      | .error e => .error e
      | .ok rs => .ok (renderPost t title siteName content :: rs)

/-- The package's `generate_home_page`: a missing `blog_home.template` is
caught, reported and skipped (`return`, no index written, no abort). -/
def pkgGenerateHomePage (fs : Str → Option Str) (articles siteName : Str) :
    Option Str :=
  match fs ("blog_home.template".toList) with
  | none => none
  | some t =>
    some (pyReplace
      (pyReplace (pyReplace t ("\x7b\x7bSITE_TITLE\x7d\x7d".toList) siteName)
        ("\x7b\x7bARTICLES_CONTENT\x7d\x7d".toList) articles)
      ("\x7b\x7bCOPYRIGHT\x7d\x7d".toList) (copyrightText siteName))

/-- The package run after asset copying: render all documents, then the
home page; the result carries the rendered pages and the optional index. -/
def pkgRun (fs : Str → Option Str) (blogs : List (Str × Str))
    (siteName articles : Str) : Except Unit (List Str × Option Str) :=
  match pkgRenderBlogs fs blogs siteName with
  | .error e => .error e
  | .ok rendered => .ok (rendered, pkgGenerateHomePage fs articles siteName)

/-- The built-in fallback home page of `blog_generator.py`'s
`generate_home_page` `except` branch. -/
def builtinHomeTemplate : Str :=
  ("<!DOCTYPE html>\n<html>\n<head>\n    <meta charset=\"utf-8\">\n    <title>Neural Networks Hub</title>\n</head>\n<body>\n    <h1>Neural Networks Hub</h1>\n    <div class=\"articles-grid\">\n        \x7barticles\x7d\n    </div>\n</body>\n</html>").toList

/-- `blog_generator.py`'s home-template acquisition: the template file if
readable, else the built-in fallback (the read is inside `try/except`). -/
def bgHomeTemplate (fs : Str → Option Str) : Str :=
  match fs ("blog_home_template.html".toList) with
  | some t => t
  | none => builtinHomeTemplate

/-- **C9, amended:** a missing *page* template is fatal in the package
implementation — `load_template` exits non-zero as soon as a document is
rendered (assets and earlier pages may already be written); a missing
*index* template is never fatal: `blog_generator.py` silently substitutes
its built-in fallback home page, and the package implementation skips
`index.html` and completes the run successfully. -/
theorem C9_template_handling :
    (∀ (fs : Str → Option Str) (b : Str × Str) (rest : List (Str × Str))
        (siteName : Str),
      fs ("blog_post.template".toList) = none →
      pkgRenderBlogs fs (b :: rest) siteName = .error ()) ∧
    (∀ (fs : Str → Option Str) (blogs : List (Str × Str))
        (siteName articles : Str) (r : List Str),
      fs ("blog_home.template".toList) = none →
      pkgRenderBlogs fs blogs siteName = .ok r →
      pkgRun fs blogs siteName articles = .ok (r, none)) ∧
    (∀ fs : Str → Option Str, fs ("blog_home_template.html".toList) = none →
      bgHomeTemplate fs = builtinHomeTemplate) := by
  refine ⟨?_, ?_, ?_⟩
  · intro fs b rest siteName h
    obtain ⟨title, content⟩ := b
    simp only [pkgRenderBlogs, load_template, h]
  · intro fs blogs siteName articles r hmiss hok
    simp only [pkgRun, hok, pkgGenerateHomePage, hmiss]
  · intro fs h
    simp only [bgHomeTemplate, h]

/-- Witness for `C9_template_handling` on concrete filesystems. -/
theorem C9_template_handling_witness :
    pkgRenderBlogs (fun _ => none) [("T".toList, "body".toList)]
        ("site".toList) = .error () ∧
    bgHomeTemplate (fun _ => none) = builtinHomeTemplate :=
  ⟨C9_template_handling.1 (fun _ => none) ("T".toList, "body".toList) []
      ("site".toList) rfl,
    C9_template_handling.2.2 (fun _ => none) rfl⟩

/-- **C9, counterexample to the claim as stated:** with the page template
present but the index template absent, the package run completes with
`.ok` (exit 0) and merely omits `index.html` — no fatal failure; and
`blog_generator.py` substitutes its built-in fallback for the missing
*index* template, which the claim forbids ("never for the index
template"). -/
theorem C9_counterexample :
    pkgRun
        (fun n => if n = "blog_post.template".toList then some ("PAGE".toList)
          else none)
        [("T".toList, "c".toList)] ("site".toList) ("arts".toList) =
      .ok (["PAGE".toList], none) ∧
    bgHomeTemplate (fun _ => none) = builtinHomeTemplate := by
  constructor
  · rfl
  · rfl

end BlogStack
